import Mathlib

/-!
Verification development for the RecruitIQ candidate scoring and ranking
engine (`recrute.py`).

The source builds, for each interview session, a candidate×metric table
as a pandas DataFrame from per-candidate score dictionaries, then ranks
candidates by one of three methods (Single Metric, Weighted Average,
Composite Score) and reports dashboard statistics.  We embed that data
path shallowly:

* a DataFrame row is `Row` (candidate name plus the score dictionary);
* a missing cell (pandas `NaN`) is `none : Option ℚ`, a present value
  `some v`; score values are rationals;
* pandas NaN propagation in arithmetic, NaN-skipping `mean`/`min`/`max`,
  and NaN-last descending `sort_values` are modelled explicitly below.

`sort_values` in pandas (`nargsort`) separates the NaN-keyed rows, sorts
the rest descending with the caller's kind (here the default
`kind="quicksort"`), and appends the NaN-keyed rows at the end in their
original order.  `List.mergeSort` over the non-missing rows models the
sorted segment; the properties proved below about it — it is a
permutation of its input, its keys are non-increasing, missing keys come
last, lengths are preserved — are exactly the guarantees pandas gives
for every kind.  The model's `mergeSort` additionally keeps equal keys in
input order, which pandas does **not** guarantee for the default
`kind="quicksort"` (only `"mergesort"`/`"stable"` are documented stable;
numpy's introsort reorders equal keys above its insertion-sort
threshold), so no theorem in this file relies on the tie order of
`sort_values`.
-/

namespace Recrute

/-- A row of the candidate×metric DataFrame (`candidate_data` in
`show_ranking_module` / `all_scores` in `show_analytics_dashboard`):
the candidate's name together with its score dictionary, one
`(metric, value)` entry per recorded score. -/
structure Row where
  name : String
  scores : List (String × ℚ)
deriving DecidableEq, Repr

/-- Cell lookup in a row: the DataFrame cell for column `m`, `none` when
the candidate has no score for metric `m` (pandas `NaN`). -/
def Row.val (r : Row) (m : String) : Option ℚ :=
  (r.scores.find? (fun p => p.1 = m)).map Prod.snd

/-- Append to `acc` the members of `ms` not already present, keeping
first-appearance order (how pandas accumulates DataFrame columns from a
list of dicts). -/
def addNewKeys (acc : List String) (ms : List String) : List String :=
  ms.foldl (fun a m => if a.contains m then a else a ++ [m]) acc

/-- The metric columns of the DataFrame (`metrics` at line 191 of
`recrute.py`): the union of the metric names observed across all rows, in
first-appearance order. -/
def activeMetrics (rows : List Row) : List String :=
  rows.foldl (fun acc r => addNewKeys acc (r.scores.map Prod.fst)) []

/-- Comparison used for the descending sort: row `a` may precede row `b`
when `b`'s key does not exceed `a`'s (keys are already known present when
this is used; `getD 0` only discharges the `Option`). -/
def descLE (key : Row → Option ℚ) (a b : Row) : Bool :=
  decide ((key b).getD 0 ≤ (key a).getD 0)

/-- Model of `df.sort_values(by=key, ascending=False)` (pandas default
`na_position="last"`): rows with a present key value sorted descending,
followed by the rows whose key is missing, in their input order.  Only
the kind-independent guarantees of the pandas sort (permutation,
non-increasing present keys, missing keys last, length) are used in the
theorems below: the default `kind="quicksort"` does not fix the relative
order of equal keys, so the tie order of this model is not to be relied
on. -/
def sort_values (key : Row → Option ℚ) (rows : List Row) : List Row :=
  (rows.filter (fun r => (key r).isSome)).mergeSort (descLE key)
    ++ rows.filter (fun r => !(key r).isSome)

/-- Model of `df_ranked['rank'] = range(1, len(df_ranked) + 1)`: pair
each row of the truncated ranking with its 1-based rank. -/
def assignRanks (l : List Row) : List (ℕ × Row) :=
  (List.range' 1 l.length).zip l

/-- Single Metric ranking (lines 220–223): sort by the chosen metric's
column descending, truncate to `top_n`, assign ranks. -/
def singleMetricRanking (rows : List Row) (metric : String) (top_n : ℕ) :
    List (ℕ × Row) :=
  assignRanks ((sort_values (fun r => r.val metric) rows).take top_n)

/-- Weighted score of one row (line 226,
`sum(df[metric] * weights.get(metric, 1.0) for metric in metrics)`):
pandas multiplies and sums columns elementwise, and `NaN` propagates
through `*` and `+` (even with weight `0.0`), so a candidate missing any
of the metric columns gets `NaN`; otherwise the weighted sum. -/
def weighted_score (weights : String → ℚ) (metrics : List String) (r : Row) :
    Option ℚ :=
  if metrics.all (fun m => (r.val m).isSome) then
    some (metrics.foldl (fun acc m => acc + (r.val m).getD 0 * weights m) 0)
  else none

/-- Weighted Average ranking (lines 225–229): compute `weighted_score`
for every row, sort descending, truncate, assign ranks. -/
def weightedRanking (weights : String → ℚ) (rows : List Row) (top_n : ℕ) :
    List (ℕ × Row) :=
  assignRanks
    ((sort_values (weighted_score weights (activeMetrics rows)) rows).take top_n)

/-- One step of a NaN-skipping fold over optional cells (pandas
`skipna=True` reductions): a missing cell leaves the accumulator
unchanged. -/
def optCombine (f : ℚ → ℚ → ℚ) : Option ℚ → Option ℚ → Option ℚ
  | none, v => v
  | some a, none => some a
  | some a, some v => some (f a v)

/-- NaN-skipping reduction of a list of cells by `f`; `none` when every
cell is missing (pandas reductions over an all-NaN axis). -/
def optFoldCells (f : ℚ → ℚ → ℚ) (cells : List (Option ℚ)) : Option ℚ :=
  cells.foldl (optCombine f) none

/-- Column minimum, `df[m].min()`: NaN-skipping. -/
def colMin (rows : List Row) (m : String) : Option ℚ :=
  optFoldCells min (rows.map (fun r => r.val m))

/-- Column maximum, `df[m].max()`: NaN-skipping. -/
def colMax (rows : List Row) (m : String) : Option ℚ :=
  optFoldCells max (rows.map (fun r => r.val m))

/-- Normalized cell (line 234,
`(df[metric] - df[metric].min()) / (df[metric].max() - df[metric].min())`):
when the cell is missing the result is `NaN`; when `max == min` the
expression is `0.0 / 0.0 = NaN` in pandas/numpy (no exception is raised);
otherwise the min–max scaled value. -/
def normCell (rows : List Row) (m : String) (r : Row) : Option ℚ :=
  match r.val m, colMin rows m, colMax rows m with
  | some v, some mn, some mx =>
      if mx = mn then none else some ((v - mn) / (mx - mn))
  | _, _, _ => none

/-- Row/column mean with pandas `skipna=True` semantics: sum and count
the present cells, `NaN` when none are present. -/
def mean_skipna (cells : List (Option ℚ)) : Option ℚ :=
  let s := cells.foldl
    (fun (acc : ℚ × ℕ) c =>
      match c with
      | some v => (acc.1 + v, acc.2 + 1)
      | none => acc)
    (0, 0)
  if s.2 = 0 then none else some (s.1 / (s.2 : ℚ))

/-- The cell the Composite Score method reads for metric `m` of row `r`
(line 235/237): the normalized column when `normalize` is set, the raw
column otherwise. -/
def compositeCell (rows : List Row) (normalize : Bool) (r : Row)
    (m : String) : Option ℚ :=
  if normalize then normCell rows m r else r.val m

/-- Composite score of one row (line 239,
`df[composite_cols].mean(axis=1)`): the row mean over the chosen columns,
skipping missing cells. -/
def composite_score (rows : List Row) (normalize : Bool)
    (metrics : List String) (r : Row) : Option ℚ :=
  mean_skipna (metrics.map (compositeCell rows normalize r))

/-- Composite Score ranking (lines 231–242): compute `composite_score`
for every row, sort descending, truncate, assign ranks. -/
def compositeRanking (normalize : Bool) (rows : List Row) (top_n : ℕ) :
    List (ℕ × Row) :=
  assignRanks
    ((sort_values (composite_score rows normalize (activeMetrics rows)) rows).take top_n)

/-- Column mean, `df[m].mean()`: NaN-skipping. -/
def colMean (rows : List Row) (m : String) : Option ℚ :=
  mean_skipna (rows.map (fun r => r.val m))

/-- Dashboard "Average Score" (line 126,
`df_scores.drop('candidate_name', axis=1).mean().mean()`): the mean of
the per-column means, not the mean of all cells. -/
def avg_total (rows : List Row) : Option ℚ :=
  mean_skipna ((activeMetrics rows).map (colMean rows))

/-- Dashboard "Highest Score" (line 134,
`df_scores.drop('candidate_name', axis=1).max().max()`): the maximum of
the per-column maxima. -/
def top_score (rows : List Row) : Option ℚ :=
  optFoldCells max ((activeMetrics rows).map (colMax rows))

/-- Candidate record as read from the repository. -/
structure CandidateRec where
  id : ℕ
  name : String
deriving DecidableEq, Repr

/-- Result type of the analytics dashboard's data path: the three
informational early-return states (lines 85–87, 97–99, 113–115 of
`recrute.py`) and the computed-statistics state (lines 119–135). -/
inductive DashboardResult where
  | noSessions
  | noCandidates
  | noScores
  | stats (total : ℕ) (avgScore : Option ℚ) (evaluated : ℕ)
      (topScore : Option ℚ)
deriving DecidableEq, Repr

/-- DataFrame rows of the dashboard (lines 105–111): one row per
candidate that has at least one score. -/
def buildRows (cands : List CandidateRec)
    (scoresFor : ℕ → List (String × ℚ)) : List Row :=
  cands.filterMap (fun c =>
    if scoresFor c.id = [] then none else some ⟨c.name, scoresFor c.id⟩)

/-- Data path of `show_analytics_dashboard` (lines 80–135): early
informational returns for "no sessions", "no candidates" and "no scores",
otherwise the summary statistics (total candidates, average score,
evaluated count, highest score). -/
def show_analytics_dashboard (sessions : List ℕ)
    (cands : List CandidateRec) (scoresFor : ℕ → List (String × ℚ)) :
    DashboardResult :=
  if sessions = [] then .noSessions
  else if cands = [] then .noCandidates
  else
    let rows := buildRows cands scoresFor
    if rows = [] then .noScores
    else .stats cands.length (avg_total rows) rows.length (top_score rows)

/-- Candidate record used by the CSV export in `show_data_management`. -/
structure ExportCand where
  name : String
  scores : List (String × ℚ)
deriving DecidableEq, Repr

/-- Metric cells of one export row (lines 358–374): when the candidate
has scores, one cell per recorded score; when it has none, every
registry metric is set to the explicit empty value `None`. -/
def export_row_cells (registry : List String) (c : ExportCand) :
    List (String × Option ℚ) :=
  match c.scores with
  | [] => registry.map (fun m => (m, none))
  | s => s.map (fun p => (p.1, some p.2))

/-- Metric cell of the export DataFrame for candidate `c`, column `m`:
the recorded value when the row carries one, otherwise `none` — either
the explicit `None` written for unscored candidates or the `NaN` pandas
fills in for a column the row's dict does not mention.  Both render as
an empty CSV cell. -/
def exportCell (registry : List String) (c : ExportCand) (m : String) :
    Option ℚ :=
  ((export_row_cells registry c).find? (fun p => p.1 = m)).bind Prod.snd

/-- Score lookup in an export candidate's recorded scores. -/
def ExportCand.val (c : ExportCand) (m : String) : Option ℚ :=
  (c.scores.find? (fun p => p.1 = m)).map Prod.snd

/-!
Claim-side definitions, written from the specification's words, used to
compare the spec's demands with the behaviour embedded above.
-/

/-- Spec §4.2 Weighted Average: `Σ over metrics (value_or_zero_if_missing
× weight)` — the zero-fill sum the spec prescribes. -/
def specWeightedSum (weights : String → ℚ) (metrics : List String)
    (r : Row) : ℚ :=
  (metrics.map (fun m => (r.val m).getD 0 * weights m)).sum

/-- Spec §4.2 Single Metric: the candidates that can be ranked by the
chosen metric are exactly those with a score for it; this counts them. -/
def specRankableCountSingle (rows : List Row) (metric : String) : ℕ :=
  (rows.filter (fun r => (r.val metric).isSome)).length

/-- Spec §4.1(b): the active metric set "preserving registry order" —
the registry filtered to the metrics observed in the session. -/
def specActiveMetricsRegistryOrder (registry : List String)
    (rows : List Row) : List String :=
  registry.filter (fun m => rows.any (fun r => (r.val m).isSome))

/-- All present cell values of the candidate×metric table, across all
candidates and active metrics ("all present values" in spec §4.1(c)). -/
def allPresentValues (rows : List Row) : List ℚ :=
  rows.flatMap (fun r => (activeMetrics rows).filterMap (fun m => r.val m))

/-- Spec §4.1(c): "mean of all present values across all candidates and
active metrics" — every present cell weighted equally. -/
def specGrandMean (rows : List Row) : Option ℚ :=
  if (allPresentValues rows).isEmpty then none
  else some ((allPresentValues rows).sum / ((allPresentValues rows).length : ℚ))

/-- Spec §4.1(c): "maximum of all present values". -/
def specGrandMax (rows : List Row) : Option ℚ :=
  (allPresentValues rows).max?

/-- Per-metric means of the table (each metric's mean over the
candidates scored on it), in column order. -/
def specColMeans (rows : List Row) : List ℚ :=
  (activeMetrics rows).filterMap (colMean rows)

/-- Arithmetic mean of the per-metric means — what the dashboard's
"Average Score" actually computes (see `avg_total`). -/
def specMeanOfColMeans (rows : List Row) : Option ℚ :=
  if (specColMeans rows).isEmpty then none
  else some ((specColMeans rows).sum / ((specColMeans rows).length : ℚ))

/-- Mean over the present cells only, spec §4.2 Composite: "per-candidate
mean over present columns only", `none` when no column is present. -/
def specMeanOfPresent (cells : List (Option ℚ)) : Option ℚ :=
  if (cells.filterMap id).isEmpty then none
  else some ((cells.filterMap id).sum / ((cells.filterMap id).length : ℚ))

/-- Ordering demanded of a descending score column with missing values
placed last: a present value may never follow a missing one, and present
values are non-increasing. -/
def descOK : Option ℚ → Option ℚ → Prop
  | some _, none => True
  | some x, some y => y ≤ x
  | none, none => True
  | none, some _ => False

/-!
Helper lemmas about the embedded operations.
-/

theorem Row.val_isSome_iff (r : Row) (m : String) :
    (r.val m).isSome ↔ m ∈ r.scores.map Prod.fst := by
  have hmap : ((r.scores.find? (fun p => p.1 = m)).map Prod.snd).isSome
      = (r.scores.find? (fun p => p.1 = m)).isSome := by
    cases r.scores.find? (fun p => p.1 = m) <;> rfl
  rw [Row.val, hmap, List.find?_isSome]
  simp [List.mem_map]

theorem mem_addNewKeys (acc ms : List String) (m : String) :
    m ∈ addNewKeys acc ms ↔ m ∈ acc ∨ m ∈ ms := by
  induction ms generalizing acc with
  | nil => simp [addNewKeys]
  | cons x xs ih =>
    simp only [addNewKeys, List.foldl_cons] at *
    by_cases hx : acc.contains x
    · rw [if_pos hx, ih]
      constructor
      · rintro (h | h)
        · exact Or.inl h
        · exact Or.inr (List.mem_cons_of_mem _ h)
      · rintro (h | h)
        · exact Or.inl h
        · rcases List.mem_cons.mp h with rfl | h
          · exact Or.inl (by simpa using hx)
          · exact Or.inr h
    · rw [if_neg hx, ih]
      simp only [List.mem_append, List.mem_singleton, List.mem_cons]
      tauto

theorem mem_activeMetrics (rows : List Row) (m : String) :
    m ∈ activeMetrics rows ↔ ∃ r ∈ rows, (r.val m).isSome := by
  have main : ∀ (l : List Row) (acc : List String),
      m ∈ l.foldl (fun acc r => addNewKeys acc (r.scores.map Prod.fst)) acc ↔
        m ∈ acc ∨ ∃ r ∈ l, m ∈ r.scores.map Prod.fst := by
    intro l
    induction l with
    | nil => simp
    | cons r rs ih =>
      intro acc
      simp only [List.foldl_cons, ih, mem_addNewKeys, List.mem_cons]
      constructor
      · rintro ((h | h) | ⟨r', hr', hm⟩)
        · exact Or.inl h
        · exact Or.inr ⟨r, Or.inl rfl, h⟩
        · exact Or.inr ⟨r', Or.inr hr', hm⟩
      · rintro (h | ⟨r', rfl | hr', hm⟩)
        · exact Or.inl (Or.inl h)
        · exact Or.inl (Or.inr hm)
        · exact Or.inr ⟨r', hr', hm⟩
  rw [activeMetrics, main]
  simp only [List.not_mem_nil, false_or]
  constructor
  · rintro ⟨r, hr, hm⟩
    exact ⟨r, hr, (Row.val_isSome_iff r m).mpr hm⟩
  · rintro ⟨r, hr, hm⟩
    exact ⟨r, hr, (Row.val_isSome_iff r m).mp hm⟩

theorem mean_skipna_foldl (cells : List (Option ℚ)) (s : ℚ) (n : ℕ) :
    cells.foldl
      (fun (acc : ℚ × ℕ) c =>
        match c with
        | some v => (acc.1 + v, acc.2 + 1)
        | none => acc)
      (s, n)
      = (s + (cells.filterMap id).sum, n + (cells.filterMap id).length) := by
  induction cells generalizing s n with
  | nil => simp
  | cons c t ih =>
    cases c with
    | none => simpa using ih s n
    | some v =>
      rw [List.foldl_cons, ih]
      have hfm : List.filterMap id (some v :: t) = v :: List.filterMap id t := by
        simp
      rw [hfm]
      simp only [List.sum_cons, List.length_cons, Prod.mk.injEq]
      exact ⟨by ring, by omega⟩

theorem mean_skipna_eq_spec (cells : List (Option ℚ)) :
    mean_skipna cells = specMeanOfPresent cells := by
  rw [mean_skipna, specMeanOfPresent]
  have h := mean_skipna_foldl cells 0 0
  simp only [h, zero_add, Nat.zero_add]
  rcases hc : cells.filterMap id with _ | ⟨v, t⟩
  · simp
  · simp [List.isEmpty_cons]

theorem optFoldCells_acc_none (f : ℚ → ℚ → ℚ) (cells : List (Option ℚ))
    (acc : Option ℚ) :
    cells.foldl (optCombine f) acc = none ↔
      acc = none ∧ ∀ c ∈ cells, c = none := by
  induction cells generalizing acc with
  | nil => simp
  | cons c t ih =>
    simp only [List.foldl_cons, ih, List.mem_cons]
    cases acc with
    | none =>
      cases c with
      | none => simp [optCombine]
      | some v =>
        simp only [optCombine]
        constructor
        · rintro ⟨h, -⟩
          exact absurd h (by simp)
        · rintro ⟨-, h⟩
          exact absurd (h (some v) (Or.inl rfl)) (by simp)
    | some a =>
      cases c with
      | none => simp [optCombine]
      | some v => simp [optCombine]

theorem optFoldCells_none_iff (f : ℚ → ℚ → ℚ) (cells : List (Option ℚ)) :
    optFoldCells f cells = none ↔ ∀ c ∈ cells, c = none := by
  rw [optFoldCells, optFoldCells_acc_none]
  simp

theorem optFoldCells_acc_mem (f : ℚ → ℚ → ℚ)
    (hf : ∀ a b, f a b = a ∨ f a b = b) (cells : List (Option ℚ))
    (acc : Option ℚ) (x : ℚ)
    (h : cells.foldl (optCombine f) acc = some x) :
    acc = some x ∨ some x ∈ cells := by
  induction cells generalizing acc with
  | nil => exact Or.inl h
  | cons c t ih =>
    rw [List.foldl_cons] at h
    rcases ih (optCombine f acc c) h with hh | hh
    · cases acc with
      | none =>
        cases c with
        | none => exact Or.inl hh
        | some v =>
          simp only [optCombine] at hh
          exact Or.inr (by simp [hh])
      | some a =>
        cases c with
        | none =>
          simp only [optCombine] at hh
          exact Or.inl hh
        | some v =>
          simp only [optCombine, Option.some_inj] at hh
          rcases hf a v with hc | hc
          · exact Or.inl (by rw [← hh, hc])
          · refine Or.inr ?_
            rw [← hh, hc]
            exact List.mem_cons_self _ _
    · exact Or.inr (List.mem_cons_of_mem _ hh)

theorem optFoldCells_mem (f : ℚ → ℚ → ℚ)
    (hf : ∀ a b, f a b = a ∨ f a b = b) (cells : List (Option ℚ)) (x : ℚ)
    (h : optFoldCells f cells = some x) : some x ∈ cells := by
  rcases optFoldCells_acc_mem f hf cells none x h with hh | hh
  · exact absurd hh (by simp)
  · exact hh

theorem optFoldCells_max_acc_le (cells : List (Option ℚ)) (acc : Option ℚ)
    (x : ℚ) (h : cells.foldl (optCombine max) acc = some x) :
    ∀ v : ℚ, (acc = some v ∨ some v ∈ cells) → v ≤ x := by
  induction cells generalizing acc with
  | nil =>
    simp only [List.foldl_nil] at h
    rintro v (hv | hv)
    · rw [h] at hv
      injection hv with hh
      exact le_of_eq hh.symm
    · exact absurd hv (by simp)
  | cons c t ih =>
    rw [List.foldl_cons] at h
    rintro v (hv | hv)
    · subst hv
      cases c with
      | none => exact ih (optCombine max (some v) none) h v (Or.inl rfl)
      | some w =>
        have := ih _ h (max v w) (Or.inl rfl)
        exact le_trans (le_max_left v w) this
    · rcases List.mem_cons.mp hv with rfl | hv
      · cases acc with
        | none => exact ih _ h v (Or.inl rfl)
        | some a =>
          have := ih _ h (max a v) (Or.inl rfl)
          exact le_trans (le_max_right a v) this
      · exact ih _ h v (Or.inr hv)

theorem optFoldCells_max_le (cells : List (Option ℚ)) (x : ℚ)
    (h : optFoldCells max cells = some x) :
    ∀ v : ℚ, some v ∈ cells → v ≤ x := by
  intro v hv
  exact optFoldCells_max_acc_le cells none x h v (Or.inr hv)

theorem optFoldCells_min_acc_ge (cells : List (Option ℚ)) (acc : Option ℚ)
    (x : ℚ) (h : cells.foldl (optCombine min) acc = some x) :
    ∀ v : ℚ, (acc = some v ∨ some v ∈ cells) → x ≤ v := by
  induction cells generalizing acc with
  | nil =>
    simp only [List.foldl_nil] at h
    rintro v (hv | hv)
    · rw [h] at hv
      injection hv with hh
      exact le_of_eq hh
    · exact absurd hv (by simp)
  | cons c t ih =>
    rw [List.foldl_cons] at h
    rintro v (hv | hv)
    · subst hv
      cases c with
      | none => exact ih (optCombine min (some v) none) h v (Or.inl rfl)
      | some w =>
        have := ih _ h (min v w) (Or.inl rfl)
        exact le_trans this (min_le_left v w)
    · rcases List.mem_cons.mp hv with rfl | hv
      · cases acc with
        | none => exact ih _ h v (Or.inl rfl)
        | some a =>
          have := ih _ h (min a v) (Or.inl rfl)
          exact le_trans this (min_le_right a v)
      · exact ih _ h v (Or.inr hv)

theorem optFoldCells_min_ge (cells : List (Option ℚ)) (x : ℚ)
    (h : optFoldCells min cells = some x) :
    ∀ v : ℚ, some v ∈ cells → x ≤ v := by
  intro v hv
  exact optFoldCells_min_acc_ge cells none x h v (Or.inr hv)

theorem foldl_optCombine_max_some (as : List ℚ) (b : ℚ) :
    (as.map some).foldl (optCombine max) (some b) = some (as.foldl max b) := by
  induction as generalizing b with
  | nil => simp
  | cons a t ih => simpa [optCombine] using ih (max b a)

theorem max?_eq_optFold (l : List ℚ) :
    l.max? = optFoldCells max (l.map some) := by
  cases l with
  | nil => rfl
  | cons a t =>
    show some (t.foldl max a) = (t.map some).foldl (optCombine max) (optCombine max none (some a))
    simp only [optCombine]
    exact (foldl_optCombine_max_some t a).symm

theorem descLE_trans (key : Row → Option ℚ) (a b c : Row)
    (hab : descLE key a b = true) (hbc : descLE key b c = true) :
    descLE key a c = true := by
  simp only [descLE, decide_eq_true_eq] at *
  exact le_trans hbc hab

theorem descLE_total (key : Row → Option ℚ) (a b : Row) :
    (descLE key a b || descLE key b a) = true := by
  simp only [descLE, Bool.or_eq_true, decide_eq_true_eq]
  exact le_total _ _

theorem length_sort_values (key : Row → Option ℚ) (rows : List Row) :
    (sort_values key rows).length = rows.length := by
  have hp := (List.filter_append_perm (fun r => (key r).isSome) rows).length_eq
  rw [List.length_append] at hp
  rw [sort_values, List.length_append, List.length_mergeSort]
  exact hp

theorem perm_sort_values (key : Row → Option ℚ) (rows : List Row) :
    (sort_values key rows).Perm rows := by
  refine List.Perm.trans ?_ (List.filter_append_perm (fun r => (key r).isSome) rows)
  exact List.Perm.append_right _ (List.mergeSort_perm _ _)

theorem pairwise_sort_values (key : Row → Option ℚ) (rows : List Row) :
    ((sort_values key rows).map key).Pairwise descOK := by
  rw [sort_values, List.map_append, List.pairwise_append]
  refine ⟨?_, ?_, ?_⟩
  · rw [List.pairwise_map]
    have hs := List.sorted_mergeSort (descLE_trans key) (descLE_total key)
      (rows.filter (fun r => (key r).isSome))
    refine hs.imp_of_mem ?_
    intro a b ha hb hab
    have ham : a ∈ rows.filter (fun r => (key r).isSome) :=
      List.mem_mergeSort.mp ha
    have hbm : b ∈ rows.filter (fun r => (key r).isSome) :=
      List.mem_mergeSort.mp hb
    have ha' : (key a).isSome := (List.mem_filter.mp ham).2
    have hb' : (key b).isSome := (List.mem_filter.mp hbm).2
    rcases Option.isSome_iff_exists.mp ha' with ⟨x, hx⟩
    rcases Option.isSome_iff_exists.mp hb' with ⟨y, hy⟩
    simp only [descLE, decide_eq_true_eq, hx, hy, Option.getD_some] at hab
    simpa [descOK, hx, hy] using hab
  · refine List.pairwise_of_forall_mem_list ?_
    intro a ha b hb
    rcases List.mem_map.mp ha with ⟨r, hr, rfl⟩
    rcases List.mem_map.mp hb with ⟨r', hr', rfl⟩
    have h1 : ¬ (key r).isSome := by
      simpa using List.of_mem_filter hr
    have h2 : ¬ (key r').isSome := by
      simpa using List.of_mem_filter hr'
    rw [Option.not_isSome_iff_eq_none] at h1 h2
    rw [h1, h2]
    simp [descOK]
  · intro a ha b hb
    rcases List.mem_map.mp ha with ⟨r, hr, rfl⟩
    rcases List.mem_map.mp hb with ⟨r', hr', rfl⟩
    have hrm : r ∈ rows.filter (fun x => (key x).isSome) :=
      List.mem_mergeSort.mp hr
    have h1 : (key r).isSome := (List.mem_filter.mp hrm).2
    have h2 : ¬ (key r').isSome := by
      simpa using List.of_mem_filter hr'
    rw [Option.not_isSome_iff_eq_none] at h2
    rcases Option.isSome_iff_exists.mp h1 with ⟨x, hx⟩
    rw [hx, h2]
    simp [descOK]

theorem ranked_length (key : Row → Option ℚ) (rows : List Row) (n : ℕ) :
    (assignRanks ((sort_values key rows).take n)).length = min n rows.length := by
  rw [assignRanks, List.length_zip, List.length_range', List.length_take,
    length_sort_values]
  simp

theorem ranked_ranks (key : Row → Option ℚ) (rows : List Row) (n : ℕ) :
    (assignRanks ((sort_values key rows).take n)).map Prod.fst
      = List.range' 1 (min n rows.length) := by
  rw [assignRanks, List.map_fst_zip _ _ (by rw [List.length_range'])]
  rw [List.length_take, length_sort_values]

theorem ranked_scores_pairwise (key : Row → Option ℚ) (rows : List Row)
    (n : ℕ) :
    ((assignRanks ((sort_values key rows).take n)).map (fun p => key p.2)).Pairwise
      descOK := by
  have hz : (assignRanks ((sort_values key rows).take n)).map (fun p => key p.2)
      = ((sort_values key rows).take n).map key := by
    rw [assignRanks]
    have hsnd := List.map_snd_zip (List.range' 1 ((sort_values key rows).take n).length)
      ((sort_values key rows).take n) (by rw [List.length_range'])
    have h2 : ((List.zip (List.range' 1 ((sort_values key rows).take n).length)
          ((sort_values key rows).take n)).map Prod.snd).map key
        = ((sort_values key rows).take n).map key := by rw [hsnd]
    rw [List.map_map] at h2
    simpa [Function.comp] using h2
  rw [hz]
  refine List.Pairwise.sublist ?_ (pairwise_sort_values key rows)
  exact (List.take_sublist n _).map key

theorem foldl_add_eq_sum (f : String → ℚ) (l : List String) (a : ℚ) :
    l.foldl (fun acc m => acc + f m) a = a + (l.map f).sum := by
  induction l generalizing a with
  | nil => simp
  | cons x t ih =>
    rw [List.foldl_cons, ih]
    simp only [List.map_cons, List.sum_cons]
    ring

/-!
Claims.
-/

/-- C1, counterexample: in the Weighted Average method the candidate `D`,
missing the active metric `C`, is returned with a missing (`NaN`) weighted
score, not with the zero-filled sum `8` the claim prescribes: missing
values propagate through pandas `*` and `+` instead of contributing
zero. -/
theorem c1_counterexample :
    ((weightedRanking (fun _ => 1)
        [⟨"E", [("T", 9), ("C", 8)]⟩, ⟨"D", [("T", 8)]⟩] 2).map
      (fun p => (p.1, p.2.name))) = [(1, "E"), (2, "D")]
    ∧ activeMetrics [⟨"E", [("T", 9), ("C", 8)]⟩, ⟨"D", [("T", 8)]⟩]
        = ["T", "C"]
    ∧ weighted_score (fun _ => 1) ["T", "C"] ⟨"D", [("T", 8)]⟩ = none
    ∧ specWeightedSum (fun _ => 1) ["T", "C"] ⟨"D", [("T", 8)]⟩ = 8 := by
  refine ⟨?_, by decide, by decide, ?_⟩
  · simp [weightedRanking, assignRanks, sort_values, weighted_score,
      activeMetrics, addNewKeys, Row.val, List.mergeSort, List.find?,
      List.filter, List.range', descLE]
  · have hT : Row.val ⟨"D", [("T", 8)]⟩ "T" = some 8 := by decide
    have hC : Row.val ⟨"D", [("T", 8)]⟩ "C" = none := by decide
    norm_num [specWeightedSum, hT, hC]

/-- C1, amended: for every candidate having a value for every active
metric, the weighted ranking score equals the sum over the metrics of
value × weight; a candidate missing any active metric instead receives a
missing (`NaN`) weighted score — missing metrics do not contribute zero. -/
theorem c1_amended (weights : String → ℚ) (metrics : List String) (r : Row) :
    ((∀ m ∈ metrics, (r.val m).isSome) →
      weighted_score weights metrics r = some (specWeightedSum weights metrics r))
    ∧ ((∃ m ∈ metrics, r.val m = none) →
      weighted_score weights metrics r = none) := by
  constructor
  · intro h
    rw [weighted_score, if_pos (List.all_eq_true.mpr (fun m hm => h m hm))]
    rw [specWeightedSum]
    congr 1
    rw [foldl_add_eq_sum (fun m => (r.val m).getD 0 * weights m) metrics 0,
      zero_add]
  · rintro ⟨m, hm, hnone⟩
    rw [weighted_score, if_neg]
    intro hall
    have := List.all_eq_true.mp hall m hm
    rw [hnone] at this
    simp at this

/-- C1, witness for the amended claim at a concrete input. -/
theorem c1_amended_witness :
    weighted_score (fun _ => 1) ["T"] ⟨"D", [("T", 8)]⟩
      = some (specWeightedSum (fun _ => 1) ["T"] ⟨"D", [("T", 8)]⟩) :=
  (c1_amended (fun _ => 1) ["T"] ⟨"D", [("T", 8)]⟩).1 (by decide)

/-- C2, counterexample: in the Single Metric method, candidate `B` has no
score for the chosen metric `T` yet appears in the ranking result (in
last place, with a missing value): pandas `sort_values` places `NaN` keys
last (`na_position="last"`) but does not drop them. -/
theorem c2_counterexample :
    ((singleMetricRanking [⟨"A", [("T", 7)]⟩, ⟨"B", [("C", 5)]⟩] "T" 2).map
      (fun p => (p.1, p.2.name))) = [(1, "A"), (2, "B")]
    ∧ Row.val ⟨"B", [("C", 5)]⟩ "T" = none := by
  constructor
  · simp [singleMetricRanking, assignRanks, sort_values, Row.val,
      List.mergeSort, List.find?, List.filter, List.range', descLE]
  · decide

/-- C2, amended: the Single Metric ranking keeps every candidate of the
table (the sorted ordering is a permutation of the input), the candidates
scored on the chosen metric come first in non-increasing order of that
metric, and the candidates missing the metric follow with a missing
value — they are placed last rather than excluded. -/
theorem c2_amended (rows : List Row) (metric : String) (top_n : ℕ) :
    (sort_values (fun r => r.val metric) rows).Perm rows
    ∧ ((singleMetricRanking rows metric top_n).map
        (fun p => p.2.val metric)).Pairwise descOK := by
  refine ⟨perm_sort_values _ rows, ?_⟩
  exact ranked_scores_pairwise (fun r => r.val metric) rows top_n

/-- C3, counterexample: with all candidates tied on metric `T`
(`max == min`), the normalized value is missing (`0.0 / 0.0 = NaN` in
pandas), not the `0.0` the claim prescribes. -/
theorem c3_counterexample :
    normCell [⟨"a", [("T", 5)]⟩, ⟨"b", [("T", 5)]⟩] "T" ⟨"a", [("T", 5)]⟩ = none
    ∧ colMax [⟨"a", [("T", 5)]⟩, ⟨"b", [("T", 5)]⟩] "T"
        = colMin [⟨"a", [("T", 5)]⟩, ⟨"b", [("T", 5)]⟩] "T"
    ∧ normCell [⟨"a", [("T", 5)]⟩, ⟨"b", [("T", 5)]⟩] "T" ⟨"a", [("T", 5)]⟩
        ≠ some 0 := by
  refine ⟨by decide, by decide, by decide⟩

/-- C3, amended: every normalized value that is produced lies in
`[0, 1]`; when `max == min` for a metric every candidate's normalized
value on that metric is missing (`NaN`), not `0.0`; the computation is
total (modelled by a total function — pandas raises no error, `0.0/0.0`
evaluating to `NaN`). -/
theorem c3_amended (rows : List Row) (m : String) (r : Row) (q : ℚ) :
    (r ∈ rows → normCell rows m r = some q → 0 ≤ q ∧ q ≤ 1)
    ∧ (colMax rows m = colMin rows m → normCell rows m r = none) := by
  constructor
  · intro hr hsome
    cases hv : r.val m with
    | none => rw [normCell, hv] at hsome; exact absurd hsome (by simp)
    | some v =>
      cases hmn : colMin rows m with
      | none => rw [normCell, hv, hmn] at hsome; exact absurd hsome (by simp)
      | some mn =>
        cases hmx : colMax rows m with
        | none => rw [normCell, hv, hmn, hmx] at hsome; exact absurd hsome (by simp)
        | some mx =>
          rw [normCell, hv, hmn, hmx] at hsome
          dsimp only at hsome
          by_cases he : mx = mn
          · rw [if_pos he] at hsome
            exact absurd hsome (by simp)
          · rw [if_neg he] at hsome
            have hcell : some v ∈ rows.map (fun r => r.val m) :=
              List.mem_map.mpr ⟨r, hr, hv⟩
            have hmnle : mn ≤ v := optFoldCells_min_ge _ mn hmn v hcell
            have hvle : v ≤ mx := optFoldCells_max_le _ mx hmx v hcell
            have hlt : mn < mx :=
              lt_of_le_of_ne (le_trans hmnle hvle) (fun h => he h.symm)
            injection hsome with hq
            rw [← hq]
            constructor
            · exact div_nonneg (by linarith) (by linarith)
            · rw [div_le_one (by linarith)]
              linarith
  · intro heq
    cases hv : r.val m with
    | none => rw [normCell, hv]
    | some v =>
      cases hmn : colMin rows m with
      | none => rw [normCell, hv, hmn]
      | some mn =>
        cases hmx : colMax rows m with
        | none => rw [normCell, hv, hmn, hmx]
        | some mx =>
          rw [normCell, hv, hmn, hmx]
          dsimp only
          rw [hmx, hmn] at heq
          injection heq with heq'
          rw [if_pos heq']

/-- C3, witness for the amended claim at a concrete input. -/
theorem c3_amended_witness : 0 ≤ (0 : ℚ) ∧ (0 : ℚ) ≤ 1 :=
  (c3_amended [⟨"a", [("T", 1)]⟩, ⟨"b", [("T", 3)]⟩] "T" ⟨"a", [("T", 1)]⟩ 0).1
    (by decide)
    (by norm_num [normCell, colMin, colMax, Row.val, optFoldCells, optCombine,
      List.find?])

theorem mem_allPresentValues (rows : List Row) (v : ℚ) :
    v ∈ allPresentValues rows ↔
      ∃ r ∈ rows, ∃ m ∈ activeMetrics rows, r.val m = some v := by
  rw [allPresentValues]
  simp only [List.mem_flatMap, List.mem_filterMap, id]

theorem avg_total_eq_meanOfColMeans (rows : List Row) :
    avg_total rows = specMeanOfColMeans rows := by
  rw [avg_total, mean_skipna_eq_spec, specMeanOfPresent, specMeanOfColMeans]
  have h : ((activeMetrics rows).map (colMean rows)).filterMap id
      = specColMeans rows := by
    rw [specColMeans, List.filterMap_map]
    rfl
  rw [h]

theorem top_score_none (rows : List Row)
    (h : top_score rows = none) : allPresentValues rows = [] := by
  rw [top_score, optFoldCells_none_iff] at h
  rw [List.eq_nil_iff_forall_not_mem]
  intro v hv
  rcases (mem_allPresentValues rows v).mp hv with ⟨r, hr, m, hm, hval⟩
  have hcol : colMax rows m = none :=
    h (colMax rows m) (List.mem_map.mpr ⟨m, hm, rfl⟩)
  rw [colMax, optFoldCells_none_iff] at hcol
  have := hcol (r.val m) (List.mem_map.mpr ⟨r, hr, rfl⟩)
  rw [hval] at this
  exact Option.noConfusion this

theorem top_score_mem (rows : List Row) (x : ℚ)
    (h : top_score rows = some x) : x ∈ allPresentValues rows := by
  rcases List.mem_map.mp (optFoldCells_mem max max_choice _ x h)
    with ⟨m, hm, hcol⟩
  rcases List.mem_map.mp (optFoldCells_mem max max_choice _ x hcol)
    with ⟨r, hr, hval⟩
  exact (mem_allPresentValues rows x).mpr ⟨r, hr, m, hm, hval⟩

theorem top_score_bound (rows : List Row) (x : ℚ)
    (h : top_score rows = some x) :
    ∀ v ∈ allPresentValues rows, v ≤ x := by
  intro v hv
  rcases (mem_allPresentValues rows v).mp hv with ⟨r, hr, m, hm, hval⟩
  have hvcell : some v ∈ rows.map (fun r => r.val m) :=
    List.mem_map.mpr ⟨r, hr, hval⟩
  cases hcol : colMax rows m with
  | none =>
    rw [colMax, optFoldCells_none_iff] at hcol
    have := hcol (some v) hvcell
    exact Option.noConfusion this
  | some c =>
    have h1 : v ≤ c := optFoldCells_max_le _ c hcol v hvcell
    have h2 : c ≤ x := optFoldCells_max_le _ x h (c)
      (List.mem_map.mpr ⟨m, hm, hcol⟩)
    exact le_trans h1 h2

theorem top_score_eq_specGrandMax (rows : List Row) :
    top_score rows = specGrandMax rows := by
  have hspec : specGrandMax rows
      = optFoldCells max ((allPresentValues rows).map some) := by
    rw [specGrandMax, max?_eq_optFold]
  cases htop : top_score rows with
  | none =>
    rw [hspec]
    symm
    rw [optFoldCells_none_iff]
    have hempty := top_score_none rows htop
    intro c hc
    rw [hempty] at hc
    exact absurd hc (by simp)
  | some x =>
    cases hsp : specGrandMax rows with
    | none =>
      rw [hspec, optFoldCells_none_iff] at hsp
      have hx := top_score_mem rows x htop
      have := hsp (some x) (List.mem_map.mpr ⟨x, hx, rfl⟩)
      exact Option.noConfusion this
    | some y =>
      rw [hspec] at hsp
      have hymem : y ∈ allPresentValues rows := by
        rcases List.mem_map.mp (optFoldCells_mem max max_choice _ y hsp)
          with ⟨v, hv, hvy⟩
        injection hvy with hvy'
        rw [← hvy']
        exact hv
      have hxy : x ≤ y := optFoldCells_max_le _ y hsp x
        (List.mem_map.mpr ⟨x, top_score_mem rows x htop, rfl⟩)
      have hyx : y ≤ x := top_score_bound rows x htop y hymem
      rw [le_antisymm hxy hyx]

/-- C4, counterexample: with metric `A` scored for two candidates
(values 0 and 0) and metric `B` for one (value 3), the dashboard's
"Average Score" is the mean of the per-column means, `(0 + 3) / 2 = 3/2`,
not the mean of all three present values, `(0 + 0 + 3) / 3 = 1`, as the
claim states. -/
theorem c4_counterexample :
    avg_total [⟨"x", [("A", 0)]⟩, ⟨"y", [("A", 0), ("B", 3)]⟩] = some (3 / 2)
    ∧ specGrandMean [⟨"x", [("A", 0)]⟩, ⟨"y", [("A", 0), ("B", 3)]⟩] = some 1
    ∧ avg_total [⟨"x", [("A", 0)]⟩, ⟨"y", [("A", 0), ("B", 3)]⟩]
        ≠ specGrandMean [⟨"x", [("A", 0)]⟩, ⟨"y", [("A", 0), ("B", 3)]⟩] := by
  have hxA : Row.val ⟨"x", [("A", 0)]⟩ "A" = some 0 := by decide
  have hxB : Row.val ⟨"x", [("A", 0)]⟩ "B" = none := by decide
  have hyA : Row.val ⟨"y", [("A", 0), ("B", 3)]⟩ "A" = some 0 := by decide
  have hyB : Row.val ⟨"y", [("A", 0), ("B", 3)]⟩ "B" = some 3 := by decide
  have hM : activeMetrics [⟨"x", [("A", 0)]⟩, ⟨"y", [("A", 0), ("B", 3)]⟩]
      = ["A", "B"] := by decide
  have hA : colMean [⟨"x", [("A", 0)]⟩, ⟨"y", [("A", 0), ("B", 3)]⟩] "A"
      = some 0 := by
    norm_num [colMean, mean_skipna, hxA, hyA, List.foldl]
  have hB : colMean [⟨"x", [("A", 0)]⟩, ⟨"y", [("A", 0), ("B", 3)]⟩] "B"
      = some 3 := by
    norm_num [colMean, mean_skipna, hxB, hyB, List.foldl]
  have h1 : avg_total [⟨"x", [("A", 0)]⟩, ⟨"y", [("A", 0), ("B", 3)]⟩]
      = some (3 / 2) := by
    rw [avg_total, hM]
    norm_num [mean_skipna, hA, hB, List.foldl]
  have h2 : specGrandMean [⟨"x", [("A", 0)]⟩, ⟨"y", [("A", 0), ("B", 3)]⟩]
      = some 1 := by
    rw [specGrandMean, allPresentValues, hM]
    norm_num [hxA, hxB, hyA, hyB, List.flatMap, List.filterMap]
  refine ⟨h1, h2, ?_⟩
  rw [h1, h2]
  norm_num

/-- C4, amended: the dashboard's maximum statistic does equal the maximum
of all present values across all candidates and active metrics, but the
mean statistic equals the arithmetic mean of the per-metric means (each
active metric's mean over the candidates scored on it), which weights
present values unequally when metrics cover different numbers of
candidates. -/
theorem c4_amended (rows : List Row) :
    top_score rows = specGrandMax rows
    ∧ avg_total rows = specMeanOfColMeans rows :=
  ⟨top_score_eq_specGrandMax rows, avg_total_eq_meanOfColMeans rows⟩

/-- C6, counterexample: in the Single Metric method with candidate `B`
missing the chosen metric `T`, the result has 2 entries although only 1
candidate is rankable by `T` in the spec's sense: the length is
`min(top_n, scored-candidate count)`, not
`min(top_n, rankable-candidate count)`. -/
theorem c6_counterexample :
    (singleMetricRanking [⟨"A", [("T", 7)]⟩, ⟨"B", [("C", 5)]⟩] "T" 2).length = 2
    ∧ specRankableCountSingle [⟨"A", [("T", 7)]⟩, ⟨"B", [("C", 5)]⟩] "T" = 1
    ∧ (singleMetricRanking [⟨"A", [("T", 7)]⟩, ⟨"B", [("C", 5)]⟩] "T" 2).length
        ≠ min 2 (specRankableCountSingle
            [⟨"A", [("T", 7)]⟩, ⟨"B", [("C", 5)]⟩] "T") := by
  have h1 : (singleMetricRanking [⟨"A", [("T", 7)]⟩, ⟨"B", [("C", 5)]⟩] "T" 2).length
      = 2 := by
    have := ranked_length (fun r => r.val "T")
      [⟨"A", [("T", 7)]⟩, ⟨"B", [("C", 5)]⟩] 2
    simpa using this
  have h2 : specRankableCountSingle [⟨"A", [("T", 7)]⟩, ⟨"B", [("C", 5)]⟩] "T"
      = 1 := by decide
  refine ⟨h1, h2, ?_⟩
  rw [h1, h2]
  decide

/-- C6, amended: for every table and each of the three ranking methods,
the result length is `min(top_n, number of candidates in the table)` —
candidates whose method score is missing still occupy slots — the rank
column is the contiguous sequence `1..length`, and the score column is
non-increasing over its present values with missing scores placed after
all present ones. -/
theorem c6_amended (rows : List Row) (metric : String) (w : String → ℚ)
    (nrm : Bool) (top_n : ℕ) :
    ((singleMetricRanking rows metric top_n).length = min top_n rows.length
      ∧ (singleMetricRanking rows metric top_n).map Prod.fst
          = List.range' 1 (min top_n rows.length)
      ∧ ((singleMetricRanking rows metric top_n).map
          (fun p => p.2.val metric)).Pairwise descOK)
    ∧ ((weightedRanking w rows top_n).length = min top_n rows.length
      ∧ (weightedRanking w rows top_n).map Prod.fst
          = List.range' 1 (min top_n rows.length)
      ∧ ((weightedRanking w rows top_n).map
          (fun p => weighted_score w (activeMetrics rows) p.2)).Pairwise descOK)
    ∧ ((compositeRanking nrm rows top_n).length = min top_n rows.length
      ∧ (compositeRanking nrm rows top_n).map Prod.fst
          = List.range' 1 (min top_n rows.length)
      ∧ ((compositeRanking nrm rows top_n).map
          (fun p => composite_score rows nrm (activeMetrics rows) p.2)).Pairwise
            descOK) := by
  refine ⟨⟨?_, ?_, ?_⟩, ⟨?_, ?_, ?_⟩, ⟨?_, ?_, ?_⟩⟩
  · exact ranked_length (fun r => r.val metric) rows top_n
  · exact ranked_ranks (fun r => r.val metric) rows top_n
  · exact ranked_scores_pairwise (fun r => r.val metric) rows top_n
  · exact ranked_length (weighted_score w (activeMetrics rows)) rows top_n
  · exact ranked_ranks (weighted_score w (activeMetrics rows)) rows top_n
  · exact ranked_scores_pairwise (weighted_score w (activeMetrics rows)) rows
      top_n
  · exact ranked_length (composite_score rows nrm (activeMetrics rows)) rows
      top_n
  · exact ranked_ranks (composite_score rows nrm (activeMetrics rows)) rows
      top_n
  · exact ranked_scores_pairwise (composite_score rows nrm (activeMetrics rows))
      rows top_n

theorem filterMap_filter_isSome {α β : Type _} (f : α → Option β)
    (l : List α) :
    List.filterMap f (l.filter (fun x => (f x).isSome)) = List.filterMap f l := by
  induction l with
  | nil => rfl
  | cons x t ih =>
    cases hx : f x with
    | none => simp [List.filter_cons, List.filterMap_cons, hx, ih]
    | some v => simp [List.filter_cons, List.filterMap_cons, hx, ih]

/-- C7, confirmed: the composite score of a candidate is the arithmetic
mean over only the chosen columns (normalized when `normalize`, raw
otherwise) in which that candidate has a present value — pandas
`mean(axis=1)` skips `NaN` — and dropping the columns where the
candidate's chosen cell is missing leaves its composite score unchanged:
a missing metric is omitted from the mean, never counted as zero. -/
theorem c7_composite_mean_over_present (rows : List Row) (normalize : Bool)
    (metrics : List String) (r : Row) :
    composite_score rows normalize metrics r
      = specMeanOfPresent (metrics.map (compositeCell rows normalize r))
    ∧ composite_score rows normalize metrics r
      = composite_score rows normalize
          (metrics.filter (fun m => (compositeCell rows normalize r m).isSome))
          r := by
  constructor
  · exact mean_skipna_eq_spec _
  · have hl : ((metrics.filter
        (fun m => (compositeCell rows normalize r m).isSome)).map
          (compositeCell rows normalize r)).filterMap id
        = (metrics.map (compositeCell rows normalize r)).filterMap id := by
      rw [List.filterMap_map, List.filterMap_map, Function.id_comp]
      exact filterMap_filter_isSome _ _
    rw [composite_score, composite_score, mean_skipna_eq_spec,
      mean_skipna_eq_spec, specMeanOfPresent, specMeanOfPresent, hl]

/-- C8, counterexample: with registry order `["A", "B"]` but metric `B`
observed first (on the first candidate), the session's metric column list
is `["B", "A"]` — first-observation order, not registry order. -/
theorem c8_counterexample :
    activeMetrics [⟨"x", [("B", 1)]⟩, ⟨"y", [("A", 2)]⟩] = ["B", "A"]
    ∧ specActiveMetricsRegistryOrder ["A", "B"]
        [⟨"x", [("B", 1)]⟩, ⟨"y", [("A", 2)]⟩] = ["A", "B"]
    ∧ activeMetrics [⟨"x", [("B", 1)]⟩, ⟨"y", [("A", 2)]⟩]
        ≠ specActiveMetricsRegistryOrder ["A", "B"]
            [⟨"x", [("B", 1)]⟩, ⟨"y", [("A", 2)]⟩] :=
  ⟨by decide, by decide, by decide⟩

/-- C8, amended: the active metric set contains exactly the metrics with
at least one score in the session, but ordered by first observation
across the candidate dictionaries, not by the external registry order;
in the CSV export each metric cell equals the candidate's recorded score
when one exists and is the explicit empty value (`None`/`NaN`, rendered
as an empty CSV cell) otherwise — an unscored cell is never a literal
zero. -/
theorem c8_amended (registry : List String) (rows : List Row) (m : String)
    (c : ExportCand) :
    (m ∈ activeMetrics rows ↔ ∃ r ∈ rows, (r.val m).isSome)
    ∧ exportCell registry c m = ExportCand.val c m
    ∧ (ExportCand.val c m = none → exportCell registry c m ≠ some 0) := by
  have hcell : exportCell registry c m = ExportCand.val c m := by
    obtain ⟨cname, cscores⟩ := c
    cases cscores with
    | nil =>
      rw [exportCell, ExportCand.val, export_row_cells]
      dsimp only
      rw [List.find?_map]
      cases registry.find?
          ((fun p => p.1 = m) ∘ (fun m' => ((m', none) : String × Option ℚ))) <;>
        simp
    | cons p t =>
      rw [exportCell, ExportCand.val, export_row_cells]
      dsimp only
      rw [List.find?_map]
      have hpred : ((fun p : String × Option ℚ => decide (p.1 = m)) ∘
            (fun q : String × ℚ => ((q.1, some q.2) : String × Option ℚ)))
          = (fun q : String × ℚ => decide (q.1 = m)) := by
        funext q
        rfl
      rw [hpred]
      cases h : List.find? (fun q : String × ℚ => decide (q.1 = m)) (p :: t) <;>
        simp [h]
  refine ⟨mem_activeMetrics rows m, hcell, ?_⟩
  intro hnone
  rw [hcell, hnone]
  simp

/-- C8, witness for the amended claim at a concrete input. -/
theorem c8_amended_witness :
    exportCell ["A", "B"] ⟨"x", [("B", 1)]⟩ "A"
      = ExportCand.val ⟨"x", [("B", 1)]⟩ "A" :=
  (c8_amended ["A", "B"] [⟨"x", [("B", 1)]⟩] "A" ⟨"x", [("B", 1)]⟩).2.1

theorem buildRows_nil (cands : List CandidateRec)
    (scoresFor : ℕ → List (String × ℚ))
    (h : ∀ c ∈ cands, scoresFor c.id = []) :
    buildRows cands scoresFor = [] := by
  rw [buildRows, List.filterMap_eq_nil_iff]
  intro c hc
  rw [if_pos (h c hc)]

/-- C9, confirmed: the dashboard's "no sessions", "no candidates" and
"no scores" conditions each produce a dedicated informational result —
total functions, no exception path — and the no-data result is a
different constructor from every statistics result, hence distinguishable
from a result computed over all-zero scores; whenever some candidate has
a score, a statistics result is produced. -/
theorem c9_no_data (sessions : List ℕ) (cands : List CandidateRec)
    (scoresFor : ℕ → List (String × ℚ)) :
    (sessions = [] →
      show_analytics_dashboard sessions cands scoresFor = .noSessions)
    ∧ (sessions ≠ [] → cands = [] →
      show_analytics_dashboard sessions cands scoresFor = .noCandidates)
    ∧ (sessions ≠ [] → (∀ c ∈ cands, scoresFor c.id = []) → cands ≠ [] →
      show_analytics_dashboard sessions cands scoresFor = .noScores)
    ∧ (sessions ≠ [] → (∃ c ∈ cands, scoresFor c.id ≠ []) →
      ∃ a t, show_analytics_dashboard sessions cands scoresFor
        = .stats cands.length a (buildRows cands scoresFor).length t)
    ∧ (∀ t a e m, (DashboardResult.noScores : DashboardResult)
        ≠ .stats t a e m) := by
  refine ⟨?_, ?_, ?_, ?_, ?_⟩
  · intro h
    rw [show_analytics_dashboard, if_pos h]
  · intro h1 h2
    rw [show_analytics_dashboard, if_neg h1, if_pos h2]
  · intro h1 hall hc
    have hrows := buildRows_nil cands scoresFor hall
    simp [show_analytics_dashboard, h1, hc, hrows]
  · rintro h1 ⟨c, hc, hne⟩
    have hcn : cands ≠ [] := List.ne_nil_of_mem hc
    have hrow : (⟨c.name, scoresFor c.id⟩ : Row) ∈ buildRows cands scoresFor := by
      rw [buildRows, List.mem_filterMap]
      exact ⟨c, hc, by rw [if_neg hne]⟩
    have hrne : buildRows cands scoresFor ≠ [] := List.ne_nil_of_mem hrow
    refine ⟨avg_total (buildRows cands scoresFor),
      top_score (buildRows cands scoresFor), ?_⟩
    simp [show_analytics_dashboard, h1, hcn, hrne]
  · intro t a e m hcon
    exact DashboardResult.noConfusion hcon

/-- C9, witness: a session with one unscored candidate yields the
"no scores" informational result. -/
theorem c9_no_data_witness :
    show_analytics_dashboard [1] [⟨1, "x"⟩] (fun _ => []) = .noScores :=
  (c9_no_data [1] [⟨1, "x"⟩] (fun _ => [])).2.2.1 (by decide) (by decide)
    (by decide)

/-- C10, confirmed: in the Weighted Average method a candidate missing at
least one observed metric gets a missing (`NaN`) weighted score, is still
a member of the sorted ordering (a permutation of the table), every
missing-scored row is placed after every numerically-scored row
(`descOK` forbids a present value after a missing one), the result
length is `min(top_n, table size)` so such candidates occupy `top_n`
slots, and every returned entry carries a rank from the contiguous
sequence. -/
theorem c10_missing_metric_weighted (w : String → ℚ) (rows : List Row)
    (top_n : ℕ) (r : Row) (hr : r ∈ rows)
    (hmiss : ∃ m ∈ activeMetrics rows, r.val m = none) :
    weighted_score w (activeMetrics rows) r = none
    ∧ r ∈ sort_values (weighted_score w (activeMetrics rows)) rows
    ∧ ((sort_values (weighted_score w (activeMetrics rows)) rows).map
        (weighted_score w (activeMetrics rows))).Pairwise descOK
    ∧ (weightedRanking w rows top_n).length = min top_n rows.length
    ∧ (weightedRanking w rows top_n).map Prod.fst
        = List.range' 1 (min top_n rows.length) := by
  have hnone : weighted_score w (activeMetrics rows) r = none := by
    rcases hmiss with ⟨m, hm, hvm⟩
    rw [weighted_score, if_neg]
    intro hall
    have := List.all_eq_true.mp hall m hm
    rw [hvm] at this
    simp at this
  refine ⟨hnone, ?_, pairwise_sort_values _ rows, ranked_length _ rows top_n,
    ranked_ranks _ rows top_n⟩
  exact ((perm_sort_values _ rows).mem_iff).mpr hr

/-- C10, witness at a concrete input: candidate `D` lacks metric `C`. -/
theorem c10_missing_metric_weighted_witness :
    weighted_score (fun _ => 1)
      (activeMetrics [⟨"E", [("T", 9), ("C", 8)]⟩, ⟨"D", [("T", 8)]⟩])
      ⟨"D", [("T", 8)]⟩ = none :=
  (c10_missing_metric_weighted (fun _ => 1)
    [⟨"E", [("T", 9), ("C", 8)]⟩, ⟨"D", [("T", 8)]⟩] 2 ⟨"D", [("T", 8)]⟩
    (by decide) (by decide)).1

end Recrute
